import Mathlib

/-! Galois: spin lock, Delaunay duplicate discarding, and miner helpers

A verification development over a shallow embedding of

* `include/Galois/Runtime/ll/SimpleLock.h` (`SimpleLock<true>`, `SimpleLock<false>`),
* `lonestar/include/Mining/miner.h` (`is_connected`, `trace`, `product`, `char_polynomial`),
* `apps/delaunaytriangulation/DelaunayTriangulation.cpp` (the duplicate-tuple loop of
  `process::operator()`).

Definitions come first, theorems afterwards.
-/

namespace Galois

/-! ## SimpleLock.h : `SimpleLock<true>` -/

/-- The class `SimpleLock<true>`: its only member is `volatile mutable int _lock`. -/
structure SimpleLock_true where
  _lock : Int
  deriving DecidableEq, Repr

namespace SimpleLock_true

/-- The constructor `SimpleLock() : _lock(0)`. -/
def new : SimpleLock_true := ⟨0⟩

/-- The builtin `__sync_fetch_and_or(&_lock, v)`: stores `_lock | v`, returns the old value. -/
def sync_fetch_and_or (s : SimpleLock_true) (v : Int) : Int × SimpleLock_true :=
  (s._lock, ⟨Int.lor s._lock v⟩)

/-- The member `try_lock()`, run without interference: the returned flag and the lock after
the call.
```
if (_lock != 0) return false;
int oldval = __sync_fetch_and_or(&_lock, 1);
return !(oldval & 1);
``` -/
def try_lock (s : SimpleLock_true) : Bool × SimpleLock_true :=
  if s._lock ≠ 0 then
    (false, s)
  else
    let r := sync_fetch_and_or s 1
    let oldval := r.1
    (decide (Int.land oldval 1 = 0), r.2)

/-- What `assert` raises in a build with assertions enabled. -/
inductive AssertionError where
  | failed
  deriving DecidableEq, Repr

/-- The member `unlock()` in a build with assertions enabled:
`assert(_lock); _lock = 0;` (the two `asm volatile` lines are compiler barriers). -/
def unlock (s : SimpleLock_true) : Except AssertionError SimpleLock_true :=
  if s._lock = 0 then
    .error .failed
  else
    .ok ⟨0⟩

/-- How far a call of `lock()` got: it returned, or it is still looping when the
observation ends.  Both carry the lock's value and the number of `try_lock` calls made. -/
inductive LockOutcome where
  | returned (s : SimpleLock_true) (tries : Nat)
  | spinning (s : SimpleLock_true) (tries : Nat)
  deriving DecidableEq, Repr

/-- The member `lock()`, run without interference and observed for `fuel` evaluations of
the inner loop condition; `tries` counts the `try_lock` calls made so far.
```
do {
  while (_lock != 0) { pause }
  if (try_lock()) break;
} while (true);
``` -/
def lock : Nat → SimpleLock_true → Nat → LockOutcome
  | 0, s, tries => .spinning s tries
  | fuel + 1, s, tries =>
    if s._lock ≠ 0 then
      lock fuel s tries
    else
      let r := try_lock s
      if r.1 then .returned r.2 (tries + 1) else lock fuel r.2 (tries + 1)

end SimpleLock_true

/-! ### Callers of a `SimpleLock<true>`

The class stores no caller identity.  To speak about "the holder" the lock is paired with a
history variable naming the caller whose acquisition succeeded last and was not yet released. -/

/-- A `SimpleLock<true>` together with the history variable `holder`. -/
structure TrackedLock where
  lk : SimpleLock_true
  holder : Option Nat
  deriving DecidableEq, Repr

namespace TrackedLock

/-- A freshly constructed lock: nobody holds it. -/
def new : TrackedLock := ⟨SimpleLock_true.new, none⟩

/-- The call `try_lock()` by `caller`; a success records `caller` as the holder. -/
def try_lock (caller : Nat) (s : TrackedLock) : Bool × TrackedLock :=
  let r := s.lk.try_lock
  (r.1, ⟨r.2, if r.1 then some caller else s.holder⟩)

/-- The call `unlock()` by `caller` (assertions enabled); the code never looks at `caller`. -/
def unlock (_caller : Nat) (s : TrackedLock) : Except SimpleLock_true.AssertionError TrackedLock :=
  match s.lk.unlock with
  | .error e => .error e
  | .ok lk => .ok ⟨lk, none⟩

end TrackedLock

/-! ## SimpleLock.h : `SimpleLock<false>` -/

/-- The class `SimpleLock<false>`: it has no data member. -/
structure SimpleLock_false where
  deriving DecidableEq, Repr

namespace SimpleLock_false

/-- The member `lock()` with the empty body. -/
def lock (s : SimpleLock_false) : SimpleLock_false := s

/-- The member `unlock()` with the empty body. -/
def unlock (s : SimpleLock_false) : SimpleLock_false := s

/-- The member `try_lock()` with the body `return true;`. -/
def try_lock (s : SimpleLock_false) : Bool × SimpleLock_false := (true, s)

end SimpleLock_false

/-- The three member functions a client can call on a lock. -/
inductive Call where
  | lock
  | unlock
  | try_lock
  deriving DecidableEq, Repr

/-- Runs a sequence of calls on a `SimpleLock<false>`; the result lists what each call
returned (`none` for the two `void` members) and the lock after the last call. -/
def runNoop : SimpleLock_false → List Call → List (Option Bool) × SimpleLock_false
  | s, [] => ([], s)
  | s, .lock :: cs => let r := runNoop s.lock cs; (none :: r.1, r.2)
  | s, .unlock :: cs => let r := runNoop s.unlock cs; (none :: r.1, r.2)
  | s, .try_lock :: cs =>
    let t := s.try_lock
    let r := runNoop t.2 cs
    (some t.1 :: r.1, r.2)

/-! ## SimpleLock.h : threads interleaving on one `SimpleLock<true>` -/

/-- Where a thread stands inside the member functions of `SimpleLock<true>`.  Every step
performs at most one access to `_lock`. -/
inductive PC where
  /-- Outside every member function. -/
  | idle
  /-- In `lock()`, about to evaluate `while (_lock != 0)`. -/
  | spin
  /-- In `try_lock()`, about to evaluate `if (_lock != 0)`; the flag tells whether the call
  came from `lock()`. -/
  | tryRead (fromLock : Bool)
  /-- In `try_lock()`, about to run `__sync_fetch_and_or(&_lock, 1)`. -/
  | tryFAO (fromLock : Bool)
  /-- In `unlock()`, about to evaluate `assert(_lock)`. -/
  | unlockAssert
  /-- In `unlock()`, about to store `_lock = 0`. -/
  | unlockStore
  /-- The assertion of `unlock()` failed. -/
  | aborted
  deriving DecidableEq, Repr

/-- A thread: its position, and whether it holds the lock, i.e. its last acquisition
(`try_lock()` returning true, directly or inside `lock()`) has not been followed by the
store of its `unlock()`. -/
structure Thread where
  pc : PC
  holds : Bool
  deriving DecidableEq, Repr

/-- The state of `n` threads sharing one lock.  `wins` is a history variable: the number of
`try_lock` calls that returned true since the last release (or since construction). -/
structure Sys (n : Nat) where
  lk : SimpleLock_true
  thr : Fin n → Thread
  wins : Nat

namespace Sys

/-- The initial state: a freshly constructed lock and `n` idle threads holding nothing. -/
def init (n : Nat) : Sys n := ⟨SimpleLock_true.new, fun _ => ⟨.idle, false⟩, 0⟩

/-- Replaces the state of thread `t`. -/
def setThr {n : Nat} (s : Sys n) (t : Fin n) (th : Thread) : Sys n :=
  { s with thr := Function.update s.thr t th }

/-- One step of thread `t`.  An idle thread starts the call `c` (an `unlock` by a thread
that does not hold the lock is not part of the considered runs and leaves the state as it
is); a thread inside a call performs its next access to `_lock`, whatever `c` is. -/
def step {n : Nat} (s : Sys n) (t : Fin n) (c : Call) : Sys n :=
  let th := s.thr t
  match th.pc with
  | .idle =>
    match c with
    | .try_lock => s.setThr t { th with pc := .tryRead false }
    | .lock => s.setThr t { th with pc := .spin }
    | .unlock => if th.holds then s.setThr t { th with pc := .unlockAssert } else s
  | .spin =>
    if s.lk._lock ≠ 0 then s else s.setThr t { th with pc := .tryRead true }
  | .tryRead fromLock =>
    if s.lk._lock ≠ 0 then
      s.setThr t { th with pc := if fromLock then .spin else .idle }
    else
      s.setThr t { th with pc := .tryFAO fromLock }
  | .tryFAO fromLock =>
    let r := s.lk.sync_fetch_and_or 1
    if Int.land r.1 1 = 0 then
      { lk := r.2, thr := Function.update s.thr t ⟨.idle, true⟩, wins := s.wins + 1 }
    else
      { lk := r.2,
        thr := Function.update s.thr t { th with pc := if fromLock then .spin else .idle },
        wins := s.wins }
  | .unlockAssert =>
    if s.lk._lock = 0 then s.setThr t { th with pc := .aborted }
    else s.setThr t { th with pc := .unlockStore }
  | .unlockStore =>
    { lk := ⟨0⟩, thr := Function.update s.thr t ⟨.idle, false⟩, wins := 0 }
  | .aborted => s

/-- Runs a schedule: a list of (thread, call) pairs, one step each. -/
def run {n : Nat} (s : Sys n) : List (Fin n × Call) → Sys n
  | [] => s
  | (t, c) :: rest => run (s.step t c) rest

end Sys

/-- The invariant of every run: `_lock` is 0 or 1; at most one thread holds; nobody holds a
free lock; a thread inside `unlock()` holds; no assertion failed; `wins` mirrors `_lock`. -/
def Sys.Inv {n : Nat} (s : Sys n) : Prop :=
  (s.lk._lock = 0 ∨ s.lk._lock = 1) ∧
  (∀ i j, (s.thr i).holds = true → (s.thr j).holds = true → i = j) ∧
  (s.lk._lock = 0 → ∀ i, (s.thr i).holds = false) ∧
  (∀ i, (s.thr i).pc = .unlockAssert ∨ (s.thr i).pc = .unlockStore →
    (s.thr i).holds = true) ∧
  (∀ i, (s.thr i).pc ≠ .aborted) ∧
  s.wins = if s.lk._lock = 0 then 0 else 1

/-! ## DelaunayTriangulation.cpp : the duplicate-tuple loop of `process::operator()`

`Tuple` (with its `operator==`) and `Element` (with `getPoint` and `getTuples`) are declared
in headers outside this development; the loop is embedded over an arbitrary tuple type, an
arbitrary comparison `eq` and an arbitrary point accessor `getPoint`. -/

/-- The inner loop, started at index `i` with `k` iterations left; `t` is `tuples.back()`.
Returns the value of `i` when the loop is left and the tuple list at that moment.
```
for (i = 0; i < 3; ++i) {
  if (data.getPoint(i) == t) {
    tuples.pop_back();
    break;
  }
}
``` -/
def dupScan {Tuple : Type} (eq : Tuple → Tuple → Bool) (getPoint : Nat → Tuple) (t : Tuple) :
    Nat → Nat → List Tuple → Nat × List Tuple
  | 0, i, tuples => (i, tuples)
  | k + 1, i, tuples =>
    if eq (getPoint i) t then (i, tuples.dropLast) else dupScan eq getPoint t k (i + 1) tuples

/-- The outer loop, run for at most `fuel` iterations; `none` means the fuel ran out before
the loop was left.
```
while (!tuples.empty()) {
  Tuple& t = tuples.back();
  int i;
  for (i = 0; i < 3; ++i) { ... }
  if (i == 3)
    break;
}
``` -/
def discardDuplicates {Tuple : Type} (eq : Tuple → Tuple → Bool) (getPoint : Nat → Tuple) :
    Nat → List Tuple → Option (List Tuple)
  | 0, _ => none
  | fuel + 1, tuples =>
    match tuples.getLast? with
    | none => some tuples
    | some t =>
      let r := dupScan eq getPoint t 3 0 tuples
      if r.1 = 3 then some r.2 else discardDuplicates eq getPoint fuel r.2

/-- A list the loop stops at: it is empty, or its last tuple equals none of the three
points of the element. -/
def Settled {Tuple : Type} (eq : Tuple → Tuple → Bool) (getPoint : Nat → Tuple)
    (p : List Tuple) : Prop :=
  p = [] ∨ ∃ t, p.getLast? = some t ∧ ∀ i < 3, eq (getPoint i) t = false

/-! ## miner.h : `degree_counting` and `is_connected`

The graph class is declared outside this development.  `Miner` uses `graph->size()`, and for
a node `v` the range `graph->edges(v)` with `graph->getEdgeDst(e)` for each edge `e` of it;
`edges v` below is the list of those destinations in iteration order. -/

namespace Miner

/-- The part of `Graph` the miner reads: the number of nodes and the edge destinations. -/
structure Graph where
  size : Nat
  edges : Nat → List Nat

/-- The member `degree_counting()`: `degrees.resize(graph->size())`, then for every node
`v` the store `degrees[v] = std::distance(graph->edge_begin(v), graph->edge_end(v))`. -/
def degree_counting (graph : Graph) (degrees : List Nat) : List Nat :=
  (List.range graph.size).foldl (fun degrees v => degrees.set v (graph.edges v).length)
    (degrees.take graph.size ++ List.replicate (graph.size - degrees.length) 0)

/-- One of the two loops of `is_connected`, over the remaining edge destinations, with the
current value of `connected`:
```
for (auto e : graph->edges(from)) {
  GNode dst = graph->getEdgeDst(e);
  if (dst == to) { connected = true; break; }
}
``` -/
def scanEdges (target : Nat) : List Nat → Bool → Bool
  | [], connected => connected
  | dst :: rest, connected => if dst = target then true else scanEdges target rest connected

/-- The member `is_connected(from, to)`; `none` when `degrees[from]` or `degrees[to]` is
outside the vector.
```
bool connected = false;
if (degrees[from] < degrees[to]) { scan edges(from) for to }
else { scan edges(to) for from }
return connected;
``` -/
def is_connected (graph : Graph) (degrees : List Nat) (from_ to_ : Nat) : Option Bool :=
  match degrees[from_]?, degrees[to_]? with
  | some dfrom, some dto =>
    if dfrom < dto then some (scanEdges to_ (graph.edges from_) false)
    else some (scanEdges from_ (graph.edges to_) false)
  | _, _ => none

/-- A path on three nodes, 1 - 0 - 2, used as a concrete instance. -/
def pathGraph : Graph :=
  ⟨3, fun v => if v = 0 then [1, 2] else if v = 1 then [0] else if v = 2 then [0] else []⟩

end Miner

/-! ## miner.h : `trace`, `product` and `char_polynomial`

`typedef float MatType;`  A `float` is an IEEE 754 binary32 value and every arithmetic
operation returns its exact result rounded to nearest, ties to even (each operation rounded
on its own, in binary32).  A `std::vector` is a list, read with a default outside its range.

The three functions are written once over the operations they use, and run

* with the arithmetic of `float` (`MatType.arith`): this is the code;
* with exact rational arithmetic (`exactArith`): the reading "with the arithmetic taken
  exactly";
* with the arithmetic of `float` and a history bit per value (`Tracked.arith`), which
  records whether every operation behind the value returned its exact result. -/

/-- The counting loop `for (unsigned i = lo; i < hi; i++) body`, run on the state `s`. -/
def forLoop {σ : Type} (lo hi : Nat) (body : Nat → σ → σ) (s : σ) : σ :=
  (List.range' lo (hi - lo)).foldl (fun s i => body i s) s

/-- The values of the C++ type `float` (IEEE 754 binary32): the finite ones with their
rational value, the two infinities, and NaN.  The sign of zero is not recorded. -/
inductive F32 where
  | fin (q : ℚ)
  | inf (negative : Bool)
  | nan
  deriving DecidableEq

namespace F32

/-- The integer nearest to `y`, a tie going to the even one. -/
def roundHalfEven (y : ℚ) : ℤ :=
  let f := ⌊y⌋
  let r := y - f
  if r < 1 / 2 then f
  else if 1 / 2 < r then f + 1
  else if f % 2 = 0 then f else f + 1

/-- The number `⌊log₂ n⌋` for `n ≥ 1` (and 0 for `n = 0`), by halving; `fuel = n` is
enough. -/
def log2Fuel : Nat → Nat → Nat
  | 0, _ => 0
  | fuel + 1, n => if 2 ≤ n then log2Fuel fuel (n / 2) + 1 else 0

/-- The exponent `⌊log₂ |x|⌋` of a nonzero rational. -/
def ilog2 (x : ℚ) : ℤ :=
  let a := |x|
  if 1 ≤ a then (log2Fuel ⌊a⌋.toNat ⌊a⌋.toNat : ℤ)
  else
    let m := ⌈1 / a⌉.toNat
    let l := log2Fuel m m
    if 2 ^ l = m then -(l : ℤ) else -((l : ℤ) + 1)

/-- Rounding of an exact result to binary32, to nearest with ties to even: 24 significant
bits, exponents from -126 (below that the spacing stays `2^-149`), overflow to infinity. -/
def round (x : ℚ) : F32 :=
  if x = 0 then fin 0
  else
    let e := max (ilog2 x) (-126)
    let ulp : ℚ := 2 ^ (e - 23)
    let r := (roundHalfEven (x / ulp) : ℚ) * ulp
    if (2 : ℚ) ^ (128 : ℕ) ≤ |r| then inf (decide (x < 0)) else fin r

/-- The sum `x + y` of two floats. -/
def add : F32 → F32 → F32
  | fin a, fin b => round (a + b)
  | fin _, inf s => inf s
  | inf s, fin _ => inf s
  | inf s, inf t => if s = t then inf s else nan
  | nan, _ => nan
  | _, nan => nan

/-- The negation `-x`. -/
def neg : F32 → F32
  | fin a => fin (-a)
  | inf s => inf (!s)
  | nan => nan

/-- The difference `x - y`. -/
def sub (x y : F32) : F32 := add x (neg y)

/-- The product `x * y`. -/
def mul : F32 → F32 → F32
  | fin a, fin b => round (a * b)
  | fin a, inf s => if a = 0 then nan else inf (xor s (decide (a < 0)))
  | inf s, fin b => if b = 0 then nan else inf (xor s (decide (b < 0)))
  | inf s, inf t => inf (xor s t)
  | nan, _ => nan
  | _, nan => nan

/-- The conversion of an `unsigned` to `float`. -/
def ofNat (i : Nat) : F32 := round (i : ℚ)

/-- The quotient `x / i` with `i` of type `unsigned`: `i` is converted to `float` (a
non-negative value, its zero being `+0`), then the division is rounded. -/
def divNat (x : F32) (i : Nat) : F32 :=
  match x, ofNat i with
  | fin a, fin b =>
    if b = 0 then (if a = 0 then nan else inf (decide (a < 0))) else round (a / b)
  | fin _, inf _ => fin 0
  | inf s, fin _ => inf s
  | inf _, inf _ => nan
  | nan, _ => nan
  | _, nan => nan

/-- Whether the float `r` is finite and equals the exact result `x`, if there is one. -/
def isExactly (r : F32) (x : Option ℚ) : Bool :=
  match x with
  | some q => decide (r = fin q)
  | none => false

/-- The exact result of a binary operation on two floats, when both are finite. -/
def exact2 (f : ℚ → ℚ → ℚ) : F32 → F32 → Option ℚ
  | fin a, fin b => some (f a b)
  | _, _ => none

/-- The exact result of `x / i`, when `x` is finite and `i` is not 0. -/
def exactDivNat : F32 → Nat → Option ℚ
  | fin a, i => if i = 0 then none else some (a / (i : ℚ))
  | _, _ => none

end F32

namespace Miner

/-- The operations on `MatType` that `trace`, `product` and `char_polynomial` use: the
literal `0`, `+` (in `+=`), `-` (in `-=`), `*`, and `/` by an `unsigned`. -/
structure Arith (α : Type) where
  zero : α
  add : α → α → α
  sub : α → α → α
  mul : α → α → α
  divNat : α → Nat → α

/-- The typedef `MatType` is `float`. -/
abbrev MatType : Type := F32

/-- The arithmetic of `float`: every operation rounds its exact result to binary32. -/
def MatType.arith : Arith MatType :=
  { zero := .fin 0, add := F32.add, sub := F32.sub, mul := F32.mul, divNat := F32.divNat }

/-- A float together with a history bit: `exact` is true when the value is finite and every
operation that led to it, from finite inputs, returned its exact result. -/
structure Tracked where
  val : F32
  exact : Bool
  deriving DecidableEq

/-- The arithmetic of `float` on tracked values: the values are those of `MatType.arith`,
the history bits are combined and cleared by any operation whose result is not exact. -/
def Tracked.arith : Arith Tracked :=
  { zero := ⟨.fin 0, true⟩,
    add := fun x y => ⟨F32.add x.val y.val,
      x.exact && y.exact &&
        F32.isExactly (F32.add x.val y.val) (F32.exact2 (fun a b => a + b) x.val y.val)⟩,
    sub := fun x y => ⟨F32.sub x.val y.val,
      x.exact && y.exact &&
        F32.isExactly (F32.sub x.val y.val) (F32.exact2 (fun a b => a - b) x.val y.val)⟩,
    mul := fun x y => ⟨F32.mul x.val y.val,
      x.exact && y.exact &&
        F32.isExactly (F32.mul x.val y.val) (F32.exact2 (fun a b => a * b) x.val y.val)⟩,
    divNat := fun x i => ⟨F32.divNat x.val i,
      x.exact && F32.isExactly (F32.divNat x.val i) (F32.exactDivNat x.val i)⟩ }

/-- The typedef `Matrix`, i.e. `std::vector<std::vector<MatType> >`. -/
abbrev Matrix (α : Type) : Type := List (List α)

/-- The read `m[i][j]`. -/
def Matrix.at {α : Type} (ar : Arith α) (m : Matrix α) (i j : Nat) : α :=
  (m.getD i []).getD j ar.zero

/-- The store `m[i][j] = v`. -/
def Matrix.put {α : Type} (m : Matrix α) (i j : Nat) (v : α) : Matrix α :=
  m.set i ((m.getD i []).set j v)

/-- The member `trace(n, matrix)`:
```
MatType tr = 0;
for (unsigned i = 0; i < n; i++) tr += matrix[i][i];
return tr;
``` -/
def trace {α : Type} (ar : Arith α) (n : Nat) (matrix : Matrix α) : α :=
  forLoop 0 n (fun i tr => ar.add tr (matrix.at ar i i)) ar.zero

/-- The member `product(n, a, b)`:
```
Matrix c(n, std::vector<MatType>(n));
for (unsigned i = 0; i < n; ++i)
  for (unsigned j = 0; j < n; ++j) {
    c[i][j] = 0;
    for (unsigned k = 0; k < n; ++k) c[i][j] += a[i][k] * b[k][j];
  }
return c;
``` -/
def product {α : Type} (ar : Arith α) (n : Nat) (a b : Matrix α) : Matrix α :=
  forLoop 0 n (fun i c =>
    forLoop 0 n (fun j c =>
      forLoop 0 n (fun k c =>
          c.put i j (ar.add (c.at ar i j) (ar.mul (a.at ar i k) (b.at ar k j))))
        (c.put i j ar.zero)) c)
    (List.replicate n (List.replicate n ar.zero))

end Miner

/-- On a free lock `try_lock` wins: the fetch-and-or reads 0 and stores 1. -/
theorem try_lock_free (s : SimpleLock_true) (h : s._lock = 0) : s.try_lock = (true, ⟨1⟩) := by
  unfold SimpleLock_true.try_lock SimpleLock_true.sync_fetch_and_or
  simp only [h, ne_eq, not_true_eq_false, if_false]
  decide

/-- C1: `try_lock` on a `SimpleLock<true>` always returns and decides by the current state:
on a free lock (`_lock = 0`) it returns true and leaves `_lock = 1`; on a held lock
(`_lock ≠ 0`) it returns false and leaves the lock as it was. -/
theorem try_lock_spec (s : SimpleLock_true) :
    s.try_lock = if s._lock = 0 then (true, ⟨1⟩) else (false, s) := by
  unfold SimpleLock_true.try_lock SimpleLock_true.sync_fetch_and_or
  by_cases h : s._lock = 0
  · simp only [h, ne_eq, not_true_eq_false, if_false, if_true]
    decide
  · simp [h]

/-- C2 (as stated, refuted): caller 0 acquires a fresh lock, so caller 1 does not hold it;
yet `unlock()` called by caller 1 raises no assertion error and sets the lock free. -/
theorem unlock_by_non_holder_releases :
    (TrackedLock.try_lock 0 TrackedLock.new).2.holder = some 0 ∧
    (TrackedLock.try_lock 0 TrackedLock.new).2.holder ≠ some 1 ∧
    TrackedLock.unlock 1 (TrackedLock.try_lock 0 TrackedLock.new).2 = .ok ⟨⟨0⟩, none⟩ :=
  ⟨by decide, by decide, rfl⟩

/-- C2 (amended): with assertions enabled, `unlock()` fails with an assertion error exactly
when the lock is free (`_lock = 0`); on a held lock (`_lock ≠ 0`) it sets `_lock` to 0 and
no holder remains, whoever the caller is and whoever the holder was. -/
theorem unlock_spec (caller : Nat) (s : TrackedLock) :
    TrackedLock.unlock caller s =
      if s.lk._lock = 0 then .error .failed else .ok ⟨⟨0⟩, none⟩ := by
  unfold TrackedLock.unlock SimpleLock_true.unlock
  by_cases h : s.lk._lock = 0 <;> simp [h]

/-- C3: `lock()` on a lock nobody else touches.  If the lock is free, the call returns as
soon as it is observed for one loop test, after exactly one `try_lock` call (a successful
one), leaving `_lock = 1`.  If the lock is held, then however long the call is observed it
has not returned, the lock is unchanged and no `try_lock` call (hence no
`__sync_fetch_and_or`) was made. -/
theorem lock_spec (fuel : Nat) (s : SimpleLock_true) :
    SimpleLock_true.lock (fuel + 1) s 0 =
      if s._lock = 0 then .returned ⟨1⟩ 1 else .spinning s 0 := by
  by_cases h : s._lock = 0
  · simp [SimpleLock_true.lock, try_lock_free s h, h]
  · simp only [h, if_false]
    induction fuel with
    | zero => simp [SimpleLock_true.lock, h]
    | succ k ih =>
      rw [SimpleLock_true.lock]
      simp only [ne_eq, h, not_false_eq_true, if_true]
      exact ih

/-- C4: on a `SimpleLock<false>` every sequence of `lock`, `unlock` and `try_lock` calls
runs to its end, every `try_lock` in it returns true (the two `void` members return
nothing), the lock after the run is the lock before it, and any two such locks are equal:
the class has no state. -/
theorem noop_lock_spec (s : SimpleLock_false) (calls : List Call) :
    runNoop s calls =
        (calls.map (fun c => if c = Call.try_lock then some true else none), s) ∧
      ∀ a b : SimpleLock_false, a = b := by
  refine ⟨?_, fun a b => rfl⟩
  induction calls generalizing s with
  | nil => rfl
  | cons c cs ih =>
    cases c <;> simp [runNoop, ih, SimpleLock_false.lock, SimpleLock_false.unlock,
      SimpleLock_false.try_lock]

/-! ### Mutual exclusion -/

theorem Sys.inv_init (n : Nat) : (Sys.init n).Inv := by
  simp [Sys.Inv, Sys.init, SimpleLock_true.new]

/-- A step that only moves the position of thread `t` keeps the invariant, provided the
new position is neither inside `unlock()` (unless `t` holds) nor `aborted`. -/
theorem Sys.inv_setPc {n : Nat} (s : Sys n) (t : Fin n) (p : PC) (h : s.Inv)
    (hp : p ≠ .aborted)
    (hu : p = .unlockAssert ∨ p = .unlockStore → (s.thr t).holds = true) :
    (s.setThr t { s.thr t with pc := p }).Inv := by
  obtain ⟨h1, h2, h3, h4, h5, h6⟩ := h
  refine ⟨h1, ?_, ?_, ?_, ?_, h6⟩
  · intro i j hi hj
    simp only [Sys.setThr, Function.update_apply] at hi hj
    apply h2 i j
    · split at hi
      · next e => rw [e]; exact hi
      · exact hi
    · split at hj
      · next e => rw [e]; exact hj
      · exact hj
  · intro h0 i
    simp only [Sys.setThr, Function.update_apply]
    split
    · exact h3 h0 t
    · exact h3 h0 i
  · intro i hi
    simp only [Sys.setThr, Function.update_apply] at hi ⊢
    split
    · next e => rw [if_pos e] at hi; exact hu hi
    · next e => rw [if_neg e] at hi; exact h4 i hi
  · intro i
    simp only [Sys.setThr, Function.update_apply]
    split
    · exact hp
    · exact h5 i

theorem Sys.inv_step {n : Nat} (s : Sys n) (t : Fin n) (c : Call) (h : s.Inv) :
    (s.step t c).Inv := by
  unfold Sys.step
  simp only
  cases hpc : (s.thr t).pc with
  | idle =>
    cases c with
    | try_lock => exact Sys.inv_setPc s t _ h (by simp) (by simp)
    | lock => exact Sys.inv_setPc s t _ h (by simp) (by simp)
    | unlock =>
      simp only
      split
      · next hh => exact Sys.inv_setPc s t _ h (by simp) (fun _ => hh)
      · exact h
  | spin =>
    simp only
    split
    · exact h
    · exact Sys.inv_setPc s t _ h (by simp) (by simp)
  | tryRead b =>
    simp only
    split
    · exact Sys.inv_setPc s t _ h (by cases b <;> simp) (by cases b <;> simp)
    · exact Sys.inv_setPc s t _ h (by simp) (by simp)
  | tryFAO b =>
    obtain ⟨h1, h2, h3, h4, h5, h6⟩ := h
    simp only [SimpleLock_true.sync_fetch_and_or]
    rcases h1 with h0 | h0
    · -- the lock was free: the fetch-and-or wins
      have e1 : Int.land s.lk._lock 1 = 0 := by rw [h0]; decide
      have e2 : Int.lor s.lk._lock 1 = 1 := by rw [h0]; decide
      rw [if_pos e1, e2]
      refine ⟨Or.inr rfl, ?_, ?_, ?_, ?_, ?_⟩
      · intro i j hi hj
        simp only [Function.update_apply] at hi hj
        by_cases ei : i = t
        · by_cases ej : j = t
          · rw [ei, ej]
          · rw [if_neg ej, h3 h0 j] at hj; exact absurd hj (by simp)
        · rw [if_neg ei, h3 h0 i] at hi; exact absurd hi (by simp)
      · intro hc; simp at hc
      · intro i hi
        simp only [Function.update_apply] at hi ⊢
        by_cases ei : i = t
        · rw [if_pos ei]
        · rw [if_neg ei] at hi ⊢
          have := h4 i hi
          rw [h3 h0 i] at this; exact absurd this (by simp)
      · intro i
        simp only [Function.update_apply]
        by_cases ei : i = t
        · rw [if_pos ei]; simp
        · rw [if_neg ei]; exact h5 i
      · simp [h6, h0]
    · -- the lock was held: the fetch-and-or loses and changes nothing
      have e1 : ¬ Int.land s.lk._lock 1 = 0 := by rw [h0]; decide
      have e2 : Int.lor s.lk._lock 1 = 1 := by rw [h0]; decide
      rw [if_neg e1, e2]
      have hs : s.Inv := ⟨Or.inr h0, h2, h3, h4, h5, h6⟩
      have := Sys.inv_setPc s t (if b = true then PC.spin else PC.idle) hs
        (by cases b <;> simp) (by cases b <;> simp)
      simpa only [Sys.setThr, ← h0] using this
  | unlockAssert =>
    have hh : (s.thr t).holds = true := h.2.2.2.1 t (Or.inl hpc)
    have hne : ¬ s.lk._lock = 0 := by
      intro h0
      have := h.2.2.1 h0 t
      rw [hh] at this; exact absurd this (by simp)
    simp only [if_neg hne]
    exact Sys.inv_setPc s t _ h (by simp) (fun _ => hh)
  | unlockStore =>
    obtain ⟨h1, h2, h3, h4, h5, h6⟩ := h
    have hh : (s.thr t).holds = true := h4 t (Or.inr hpc)
    have hothers : ∀ i, i ≠ t → (s.thr i).holds = false := by
      intro i hi
      by_contra hc
      exact hi (h2 i t (by simpa using hc) hh)
    refine ⟨Or.inl rfl, ?_, ?_, ?_, ?_, ?_⟩
    · intro i j hi hj
      simp only [Function.update_apply] at hi
      by_cases ei : i = t
      · rw [if_pos ei] at hi; exact absurd hi (by simp)
      · rw [if_neg ei, hothers i ei] at hi; exact absurd hi (by simp)
    · intro _ i
      simp only [Function.update_apply]
      by_cases ei : i = t
      · rw [if_pos ei]
      · rw [if_neg ei]; exact hothers i ei
    · intro i hi
      simp only [Function.update_apply] at hi ⊢
      by_cases ei : i = t
      · rw [if_pos ei] at hi; simp at hi
      · rw [if_neg ei] at hi ⊢
        have := h4 i hi
        rw [hothers i ei] at this; exact absurd this (by simp)
    · intro i
      simp only [Function.update_apply]
      by_cases ei : i = t
      · rw [if_pos ei]; simp
      · rw [if_neg ei]; exact h5 i
    · simp
  | aborted => exact h

theorem Sys.inv_run {n : Nat} (sched : List (Fin n × Call)) (s : Sys n) (h : s.Inv) :
    (s.run sched).Inv := by
  induction sched generalizing s with
  | nil => exact h
  | cons a rest ih => exact ih _ (Sys.inv_step s a.1 a.2 h)

/-- A run of two threads: thread 0 completes `try_lock()` (call, read, fetch-and-or) and
holds; thread 1 then reads `_lock = 1` in its own `try_lock()` and returns without
holding. -/
theorem Sys.run_two_threads :
    (((Sys.init 2).run
        [(0, .try_lock), (0, .try_lock), (0, .try_lock), (1, .try_lock), (1, .try_lock)]).thr 0
        = ⟨.idle, true⟩) ∧
      (((Sys.init 2).run
        [(0, .try_lock), (0, .try_lock), (0, .try_lock), (1, .try_lock), (1, .try_lock)]).thr 1
        = ⟨.idle, false⟩) ∧
      ((Sys.init 2).run
        [(0, .try_lock), (0, .try_lock), (0, .try_lock), (1, .try_lock), (1, .try_lock)]).lk
        = ⟨1⟩ := by
  decide

/-- A race of two threads: both read `_lock = 0`, then both run the fetch-and-or; only the
first one holds afterwards. -/
theorem Sys.run_race :
    (((Sys.init 2).run
        [(0, .try_lock), (1, .try_lock), (0, .try_lock), (1, .try_lock), (1, .try_lock),
          (0, .try_lock)]).thr 0 = ⟨.idle, false⟩) ∧
      (((Sys.init 2).run
        [(0, .try_lock), (1, .try_lock), (0, .try_lock), (1, .try_lock), (1, .try_lock),
          (0, .try_lock)]).thr 1 = ⟨.idle, true⟩) := by
  decide

/-- C5: mutual exclusion.  For every number `n` of threads and every schedule of their
steps on one `SimpleLock<true>` (the read of `_lock` and the atomic fetch-and-or being
separate steps, threads calling `unlock` only while they hold), in the state reached no two
distinct threads hold the lock, at most one `try_lock` has returned true since the last
release, and no assertion has failed. -/
theorem mutual_exclusion (n : Nat) (sched : List (Fin n × Call)) :
    (∀ i j : Fin n, (((Sys.init n).run sched).thr i).holds = true →
        (((Sys.init n).run sched).thr j).holds = true → i = j) ∧
      ((Sys.init n).run sched).wins ≤ 1 ∧
      ∀ i : Fin n, (((Sys.init n).run sched).thr i).pc ≠ PC.aborted := by
  have h := Sys.inv_run sched (Sys.init n) (Sys.inv_init n)
  refine ⟨h.2.1, ?_, h.2.2.2.2.1⟩
  rw [h.2.2.2.2.2]
  split <;> simp

/-! ## Theorems : DelaunayTriangulation.cpp -/

theorem dupScan_three {Tuple : Type} (eq : Tuple → Tuple → Bool) (getPoint : Nat → Tuple)
    (t : Tuple) (tuples : List Tuple) :
    ((dupScan eq getPoint t 3 0 tuples).1 = 3 ∧ (dupScan eq getPoint t 3 0 tuples).2 = tuples ∧
        ∀ i < 3, eq (getPoint i) t = false) ∨
      ((dupScan eq getPoint t 3 0 tuples).1 ≠ 3 ∧
        (dupScan eq getPoint t 3 0 tuples).2 = tuples.dropLast ∧
        ∃ i < 3, eq (getPoint i) t = true) := by
  simp only [dupScan]
  cases h0 : eq (getPoint 0) t
  · cases h1 : eq (getPoint 1) t
    · cases h2 : eq (getPoint 2) t
      · left
        refine ⟨by simp, by simp, ?_⟩
        intro i hi
        interval_cases i <;> assumption
      · right; exact ⟨by simp, by simp, 2, by omega, h2⟩
    · right; exact ⟨by simp, by simp, 1, by omega, h1⟩
  · right; exact ⟨by simp, by simp, 0, by omega, h0⟩

theorem discardDuplicates_aux {Tuple : Type} (eq : Tuple → Tuple → Bool)
    (getPoint : Nat → Tuple) (fuel : Nat) (tuples : List Tuple) (hf : tuples.length < fuel) :
    ∃ kept removed, discardDuplicates eq getPoint fuel tuples = some kept ∧
      tuples = kept ++ removed ∧
      (∀ x ∈ removed, ∃ i < 3, eq (getPoint i) x = true) ∧
      Settled eq getPoint kept ∧
      ∀ p q, tuples = p ++ q → Settled eq getPoint p → p.length ≤ kept.length := by
  induction fuel generalizing tuples with
  | zero => omega
  | succ fuel ih =>
    rw [discardDuplicates]
    cases hl : tuples.getLast? with
    | none =>
      have he : tuples = [] := List.getLast?_eq_none_iff.mp hl
      subst he
      refine ⟨[], [], rfl, rfl, by simp, Or.inl rfl, ?_⟩
      intro p q hpq _
      have : p = [] := by
        cases p with
        | nil => rfl
        | cons a p => simp at hpq
      simp [this]
    | some t =>
      obtain ⟨front, hfront⟩ := List.getLast?_eq_some_iff.mp hl
      have hdrop : tuples.dropLast = front := by rw [hfront]; simp
      simp only
      rcases dupScan_three eq getPoint t tuples with ⟨h1, h2, h3⟩ | ⟨h1, h2, h3⟩
      · rw [if_pos h1, h2]
        refine ⟨tuples, [], rfl, by simp, by simp, Or.inr ⟨t, hl, h3⟩, ?_⟩
        intro p q hpq _
        rw [hpq]; simp
      · rw [if_neg h1, h2, hdrop]
        have hlen : front.length < fuel := by
          rw [hfront] at hf; simp at hf; omega
        obtain ⟨kept, removed, e1, e2, e3, e4, e5⟩ := ih front hlen
        refine ⟨kept, removed ++ [t], e1, ?_, ?_, e4, ?_⟩
        · rw [hfront, e2]; simp
        · intro x hx
          rcases List.mem_append.mp hx with hx | hx
          · exact e3 x hx
          · rw [List.mem_singleton.mp hx]; exact h3
        · intro p q hpq hp
          rcases List.eq_nil_or_concat q with hq | ⟨q', b, hq⟩
          · -- the prefix is the whole list: its last tuple equals a point
            subst hq
            rw [List.append_nil] at hpq
            subst hpq
            rcases hp with hp | ⟨t', ht', hp⟩
            · rw [hp] at hl; simp at hl
            · rw [hl] at ht'
              obtain ⟨i, hi, hit⟩ := h3
              have := hp i hi
              rw [← Option.some.inj ht', hit] at this
              exact absurd this (by simp)
          · subst hq
            rw [hfront, List.concat_eq_append, ← List.append_assoc] at hpq
            have := List.append_inj_left' hpq rfl
            exact e5 p q' this hp

/-- C7: the duplicate-tuple loop of the Delaunay operator.  For every tuple list and every
three points, the loop is left after at most `tuples.length + 1` iterations (more fuel
changes nothing) and leaves `kept`, where `tuples = kept ++ removed`: tuples are removed
only from the back and the kept ones are unchanged and in order; every removed tuple equals
one of the three points; `kept` is empty or its last tuple equals none of the points; and
no longer beginning of the original list has that property. -/
theorem discardDuplicates_spec {Tuple : Type} (eq : Tuple → Tuple → Bool)
    (getPoint : Nat → Tuple) (tuples : List Tuple) (extra : Nat) :
    ∃ kept removed,
      discardDuplicates eq getPoint (tuples.length + 1 + extra) tuples = some kept ∧
      tuples = kept ++ removed ∧
      (∀ x ∈ removed, ∃ i < 3, eq (getPoint i) x = true) ∧
      Settled eq getPoint kept ∧
      ∀ p q, tuples = p ++ q → Settled eq getPoint p → p.length ≤ kept.length :=
  discardDuplicates_aux eq getPoint (tuples.length + 1 + extra) tuples (by omega)

/-! ## Theorems : miner.h, connectivity -/

theorem scanEdges_eq (target : Nat) (es : List Nat) :
    Miner.scanEdges target es false = decide (target ∈ es) := by
  induction es with
  | nil => simp [Miner.scanEdges]
  | cons d rest ih =>
    rw [Miner.scanEdges]
    by_cases h : d = target
    · simp [h]
    · rw [if_neg h, ih]
      have : ¬ target = d := fun e => h e.symm
      simp [this]

theorem is_connected_aux (graph : Miner.Graph) (degrees : List Nat) (from_ to_ : Nat)
    (hsym : ∀ u v, v ∈ graph.edges u ↔ u ∈ graph.edges v)
    (hfrom : from_ < degrees.length) (hto : to_ < degrees.length) :
    Miner.is_connected graph degrees from_ to_ = some (decide (to_ ∈ graph.edges from_)) := by
  unfold Miner.is_connected
  rw [List.getElem?_eq_getElem hfrom, List.getElem?_eq_getElem hto]
  simp only
  split
  · rw [scanEdges_eq]
  · rw [scanEdges_eq]
    congr 1
    exact decide_eq_decide.mpr (hsym from_ to_).symm

/-- C8: on a graph with symmetric adjacency, for every `degrees` vector covering both
vertices, `is_connected(from, to)` returns true iff `to` is a neighbour of `from`; hence it
is symmetric in its arguments and does not depend on the content of `degrees`, i.e. on
which of the two adjacency lists the degree comparison picks. -/
theorem is_connected_spec (graph : Miner.Graph) (degrees : List Nat) (from_ to_ : Nat)
    (hsym : ∀ u v, v ∈ graph.edges u ↔ u ∈ graph.edges v)
    (hfrom : from_ < degrees.length) (hto : to_ < degrees.length) :
    Miner.is_connected graph degrees from_ to_ = some (decide (to_ ∈ graph.edges from_)) ∧
      Miner.is_connected graph degrees from_ to_ = Miner.is_connected graph degrees to_ from_ ∧
      ∀ degrees2 : List Nat, from_ < degrees2.length → to_ < degrees2.length →
        Miner.is_connected graph degrees2 from_ to_ =
          Miner.is_connected graph degrees from_ to_ := by
  refine ⟨is_connected_aux graph degrees from_ to_ hsym hfrom hto, ?_, ?_⟩
  · rw [is_connected_aux graph degrees from_ to_ hsym hfrom hto,
      is_connected_aux graph degrees to_ from_ hsym hto hfrom]
    congr 1
    exact decide_eq_decide.mpr (hsym from_ to_)
  · intro d2 h1 h2
    rw [is_connected_aux graph degrees from_ to_ hsym hfrom hto,
      is_connected_aux graph d2 from_ to_ hsym h1 h2]

theorem pathGraph_symm : ∀ u v, v ∈ Miner.pathGraph.edges u ↔ u ∈ Miner.pathGraph.edges v := by
  intro u v
  simp only [Miner.pathGraph]
  split_ifs <;> simp_all

/-- C8 at a concrete input: the path 1 - 0 - 2 with the degrees `[2, 1, 1]` computed by
`degree_counting`, asked about the two end nodes (not adjacent) . -/
theorem is_connected_spec_witness :
    (1 < (Miner.degree_counting Miner.pathGraph []).length ∧
      2 < (Miner.degree_counting Miner.pathGraph []).length) ∧
    (Miner.is_connected Miner.pathGraph (Miner.degree_counting Miner.pathGraph []) 1 2 =
        some (decide (2 ∈ Miner.pathGraph.edges 1)) ∧
      Miner.is_connected Miner.pathGraph (Miner.degree_counting Miner.pathGraph []) 1 2 =
        Miner.is_connected Miner.pathGraph (Miner.degree_counting Miner.pathGraph []) 2 1 ∧
      ∀ degrees2 : List Nat, 1 < degrees2.length → 2 < degrees2.length →
        Miner.is_connected Miner.pathGraph degrees2 1 2 =
          Miner.is_connected Miner.pathGraph (Miner.degree_counting Miner.pathGraph []) 1 2) :=
  ⟨⟨by decide, by decide⟩,
    is_connected_spec Miner.pathGraph (Miner.degree_counting Miner.pathGraph []) 1 2
      pathGraph_symm (by decide) (by decide)⟩

/-! ## Theorems : miner.h, characteristic polynomial -/

/-! ### The Faddeev-LeVerrier recurrence -/

section FaddeevLeVerrier

open Polynomial Matrix Finset

end FaddeevLeVerrier

/-! ### The loops of `trace`, `product` and `char_polynomial`, run with exact arithmetic -/

/-- The float code agrees with binary32 on two small runs: `16777216 + 1` and `4097 * 4097`
are rounded. -/
theorem trace_product_float_runs :
    Miner.trace Miner.MatType.arith 2 [[.fin 16777216, .fin 0], [.fin 0, .fin 1]]
        = .fin 16777216 ∧
      Miner.product Miner.MatType.arith 1 [[.fin 4097]] [[.fin 4097]] = [[.fin 16785408]] := by
  decide!

end Galois
